import Mathlib

/-!
Verification development for the nip git remote helper (drozdziak1/nip).

The Rust sources are shallowly embedded: pure functions become Lean
functions, the IPFS daemon becomes an explicit content-addressed store
state, the git repository becomes an explicit object-database / ref-store
state, and fallible Rust code returns `Except` / `Option`.  Rust `String`
keys are Lean `String`s; `BTreeMap` becomes a sorted association list.
-/

deriving instance DecidableEq for Except

namespace NipVerify

/-! ## String helpers (shallow embedding of the Rust `str` operations used) -/

/-- `hasLead p s`: `p` is a leading segment of `s` (Rust `str::starts_with`
on character lists). -/
def hasLead : List Char → List Char → Bool
  | [], _ => true
  | _ :: _, [] => false
  | p :: ps, c :: cs => if p = c then hasLead ps cs else false

/-- Rust `s.starts_with(p)`. -/
def strHasLead (s p : String) : Bool := hasLead p.data s.data

/-- Rust `str::split(sep)` on character lists: always yields at least one
(possibly empty) segment, empty segments between adjacent separators. -/
def splitChar (sep : Char) : List Char → List (List Char)
  | [] => [[]]
  | c :: cs =>
    if c = sep then [] :: splitChar sep cs
    else
      match splitChar sep cs with
      | [] => [[c]]
      | r :: rs => (c :: r) :: rs

/-- Rust `str::split(sep)` lifted to `String`. -/
def strSplit (sep : Char) (s : String) : List String :=
  (splitChar sep s.data).map String.mk

/-- Strict lexicographic order on character lists (by code point), used to
model the `BTreeMap` key order. -/
def ltCharList : List Char → List Char → Bool
  | [], [] => false
  | [], _ :: _ => true
  | _ :: _, [] => false
  | a :: as, b :: bs =>
    if a.toNat < b.toNat then true
    else if b.toNat < a.toNat then false
    else ltCharList as bs

/-- Key order for the sorted-association-list model of `BTreeMap<String, _>`. -/
def keyLt (a b : String) : Bool := ltCharList a.data b.data

/-- `BTreeMap::insert` on the sorted-association-list model: replaces the
entry if the key is present, otherwise inserts at the ordered position. -/
def insertS {α : Type} (k : String) (v : α) : List (String × α) → List (String × α)
  | [] => [(k, v)]
  | (k2, v2) :: rest =>
    if keyLt k k2 then (k, v) :: (k2, v2) :: rest
    else if k = k2 then (k, v) :: rest
    else (k2, v2) :: insertS k v rest

/-- `BTreeMap::get` on the association-list model. -/
def lookupS {α : Type} : List (String × α) → String → Option α
  | [], _ => none
  | (k2, v) :: rest, k => if k = k2 then some v else lookupS rest k

/-! ## Constants (src/constants.rs) -/

def IPFS_HASH_LEN : Nat := 46

def NIP_PROTOCOL_VERSION : Nat := 1

/-! ## Remote addresses (src/nip_remote.rs) -/

/-- `NIPRemote` (src/nip_remote.rs:16-21). -/
inductive NIPRemote where
  | existingIPFS (hash : String)
  | existingIPNS (hash : String)
  | newIPFS
  | newIPNS
deriving DecidableEq

/-- `NIPRemoteParseError` (src/nip_remote.rs:23-31).  Note that in the
source the `InvalidLinkFormat` variant carries no payload. -/
inductive NIPRemoteParseError where
  | invalidHashLength (got want : Nat)
  | invalidLinkFormat
  | other (msg : String)
deriving DecidableEq

/-- The `#[fail(display = ...)]` strings of `NIPRemoteParseError`
(src/nip_remote.rs:25-30). -/
def errDisplay : NIPRemoteParseError → String
  | .invalidHashLength got want =>
    "Got a hash " ++ toString got ++ " chars long, expected " ++ toString want
  | .invalidLinkFormat => "Invalid link format"
  | .other m => "Failed to parse remote type: " ++ m

/-- `impl FromStr for NIPRemote` (src/nip_remote.rs:80-113): literal match
of the `new-*` forms first, then the `/ipfs/` and `/ipns/` prefixes with
`split('/').nth(2)` and the 46-character length check. -/
def nipRemoteFromStr (s : String) : Except NIPRemoteParseError NIPRemote :=
  if s = "new-ipfs" then .ok .newIPFS
  else if s = "new-ipns" then .ok .newIPNS
  else if strHasLead s "/ipfs/" then
    match (splitChar '/' s.data).get? 2 with
    | none => .error (.other "Invalid hash format")
    | some h =>
      if h.length ≠ IPFS_HASH_LEN then .error (.invalidHashLength h.length IPFS_HASH_LEN)
      else .ok (.existingIPFS (String.mk h))
  else if strHasLead s "/ipns/" then
    match (splitChar '/' s.data).get? 2 with
    | none => .error .invalidLinkFormat
    | some h =>
      if h.length ≠ IPFS_HASH_LEN then .error (.invalidHashLength h.length IPFS_HASH_LEN)
      else .ok (.existingIPNS (String.mk h))
  else .error .invalidLinkFormat

/-- `impl ToString for NIPRemote` (src/nip_remote.rs:115-124). -/
def nipRemoteToString : NIPRemote → String
  | .existingIPFS h => "/ipfs/" ++ h
  | .existingIPNS h => "/ipns/" ++ h
  | .newIPFS => "new-ipfs"
  | .newIPNS => "new-ipns"

/-- The well-formed 46-character hash shape: exactly 46 characters, none of
which is a path separator. -/
def wellFormedHash (h : String) : Prop :=
  h.data.length = IPFS_HASH_LEN ∧ ∀ c ∈ h.data, ¬ c = '/'

/-- Scope condition of the round-trip claim: `Existing-*` variants hold
well-formed hashes. -/
def wellFormedRemote : NIPRemote → Prop
  | .existingIPFS h => wellFormedHash h
  | .existingIPNS h => wellFormedHash h
  | .newIPFS => True
  | .newIPNS => True

/-! ## Git object model (the `git2` objects the helper traverses) -/

/-- A git object as the helper sees it: a commit knows its tree and its
parents, a tree knows its entries, a tag knows its target, a blob is
terminal.  Shas are hex strings as in the source. -/
inductive GitObject where
  | commit (tree : String) (parents : List String)
  | tree (entries : List String)
  | blob
  | tag (target : String)
deriving DecidableEq

/-- The children `enumerate_for_push` recurses into, by object type
(src/nip_index.rs:139-215): commit → its tree then every parent; tree →
every entry; tag → its target; blob → none. -/
def childrenOfGit : GitObject → List String
  | .commit tree parents => tree :: parents
  | .tree entries => entries
  | .blob => []
  | .tag target => [target]

/-- The local repository: an object database mapping sha → object, a ref
store mapping ref name → (fully resolved) sha, and a reflog recording each
`Repository::reference(name, oid, force, log_message)` call. -/
structure Repo where
  odb : List (String × GitObject)
  refs : List (String × String)
  reflog : List (String × String × String)
deriving DecidableEq

/-! ## Translated objects (src/nip_object.rs) -/

/-- `NIPObjectMetadata` (src/nip_object.rs:18-31). -/
inductive NIPObjectMetadata where
  | commit (parent_git_hashes : List String) (tree_git_hash : String)
  | tag (target_git_hash : String)
  | tree (entry_git_hashes : List String)
  | blob
deriving DecidableEq

/-- `NIPObject` (src/nip_object.rs:12-16). -/
structure NIPObject where
  raw_data_ipfs_hash : String
  metadata : NIPObjectMetadata
deriving DecidableEq

/-- The metadata variant `NIPObject::from_git_*` builds for each object
type (src/nip_object.rs:34-86). -/
def metaOfGit : GitObject → NIPObjectMetadata
  | .commit tree parents => .commit parents tree
  | .tree entries => .tree entries
  | .blob => .blob
  | .tag target => .tag target

/-! ## The index (src/nip_index.rs:20-29) -/

/-- `NIPIndex`: ordered ref map, ordered sha→store-hash object map,
optional previous-index store hash. -/
structure NIPIndex where
  refs : List (String × String)
  objects : List (String × String)
  prev_idx_hash : Option String
deriving DecidableEq

/-- The empty index created for a `new-*` remote
(src/nip_index.rs:70-77). -/
def emptyIndex : NIPIndex := { refs := [], objects := [], prev_idx_hash := none }

/-! ## The content-addressed store (the IPFS daemon, an external capability)

Serialization is modelled structurally: a stored blob is either a
header+CBOR index payload, a header+CBOR translated-object payload, or the
raw bytes of one git object.  The `version` field of the first two stands
for the big-endian u16 in the 8-byte `NIPNIP` header. -/

inductive IPFSBlob where
  | idxBlob (version : Nat) (payload : NIPIndex)
  | objBlob (version : Nat) (payload : NIPObject)
  | rawBlob (sha : String) (data : GitObject)
deriving DecidableEq

/-- Store state: named blobs plus the IPNS name table.  `ipfs add` names
the n-th added blob `Qm<n>`. -/
structure IPFSState where
  blobs : List (String × IPFSBlob)
  ipns : List (String × String)
deriving DecidableEq

/-- The bare hash `ipfs add` returns for the n-th blob. -/
def ipfsName (n : Nat) : String := "Qm" ++ toString n

/-- `ipfs.add(bytes)`: store the blob, return its bare hash. -/
def ipfsAdd (b : IPFSBlob) (st : IPFSState) : String × IPFSState :=
  (ipfsName st.blobs.length,
   { st with blobs := st.blobs ++ [(ipfsName st.blobs.length, b)] })

/-- `ipfs.cat(hash)`: accepts a bare hash or a full `/ipfs/<hash>` path,
like the daemon. -/
def ipfsCat (h : String) (st : IPFSState) : Option IPFSBlob :=
  lookupS st.blobs (if strHasLead h "/ipfs/" then String.mk (h.data.drop 6) else h)

/-! ## Push: enumeration (src/nip_index.rs:118-216) -/

/-- Folds the per-child recursive enumerations into the accumulator with
`HashSet::union` (modelled by `List.union`), failing if any child
enumeration fails.  This is the `ret = ret.union(&self.enumerate_for_push(..)?)`
loop body shared by the commit/tree/tag arms. -/
def unionFold (f : String → Option (List String)) (acc : List String) :
    List String → Option (List String)
  | [] => some acc
  | c :: cs =>
    match f c with
    | none => none
    | some s => unionFold f (acc.union s) cs

/-- `NIPIndex::enumerate_for_push` (src/nip_index.rs:118-216), with an
explicit recursion bound standing for the unbounded Rust recursion (the
git DAG is acyclic, so a deep enough bound always exists): if the sha is
already a key of `objects` return the empty set; otherwise record the sha
and union in the enumerations of the children by object type. -/
def enumPush : Nat → List (String × String) → Repo → String → Option (List String)
  | 0, _, _, _ => none
  | fuel + 1, objects, repo, sha =>
    if (lookupS objects sha).isSome then some []
    else
      match lookupS repo.odb sha with
      | none => none
      | some g => unionFold (fun c => enumPush fuel objects repo c) [sha] (childrenOfGit g)

/-! ## Push: upload (src/nip_index.rs:219-322 and src/nip_object.rs) -/

/-- `NIPObject::from_git_*` (src/nip_object.rs:34-86): upload the object's
raw bytes (`upload_odb_obj`, which returns `/ipfs/<hash>`), and build the
typed metadata. -/
def nipObjectOfGit (sha : String) (g : GitObject) (st : IPFSState) : NIPObject × IPFSState :=
  let r := ipfsAdd (.rawBlob sha g) st
  ({ raw_data_ipfs_hash := "/ipfs/" ++ r.1, metadata := metaOfGit g }, r.2)

/-- `NIPIndex::push_git_objects` (src/nip_index.rs:219-322): for each oid,
look the object up in the repo, skip it if already mapped in `objects`
(with a warning in the source), otherwise upload the raw bytes and the
`NIPObject` wrapper (whose `ipfs_add` returns `/ipfs/<hash>`,
src/nip_object.rs:118-128) and record sha → wrapper hash. -/
def pushGitObjects (oids : List String) (repo : Repo) (idx : NIPIndex) (st : IPFSState) :
    (NIPIndex × IPFSState) × Except String Unit :=
  match oids with
  | [] => ((idx, st), .ok ())
  | o :: rest =>
    match lookupS repo.odb o with
    | none => ((idx, st), .error ("Cannot determine type of object " ++ o))
    | some g =>
      if (lookupS idx.objects o).isSome then pushGitObjects rest repo idx st
      else
        let up := nipObjectOfGit o g st
        let wr := ipfsAdd (.objBlob NIP_PROTOCOL_VERSION up.1) up.2
        pushGitObjects rest repo
          { idx with objects := insertS o ("/ipfs/" ++ wr.1) idx.objects } wr.2

/-- `NIPIndex::push_ref_from_str` (src/nip_index.rs:82-114): resolve
`ref_src`, peel to an annotated tag if the reference is one and to a
commit otherwise, enumerate the missing objects, upload them, and insert
`ref_dst → tip sha` into `refs`.  The function takes no `force` argument
and performs no ancestry check.  `fuel` bounds the enumeration recursion. -/
def pushRefFromStr (fuel : Nat) (refSrc refDst : String) (repo : Repo)
    (idx : NIPIndex) (st : IPFSState) : (NIPIndex × IPFSState) × Except String Unit :=
  match lookupS repo.refs refSrc with
  | none => ((idx, st), .error ("could not find reference " ++ refSrc))
  | some sha =>
    match lookupS repo.odb sha with
    | none => ((idx, st), .error ("could not read object " ++ sha))
    | some g =>
      match g with
      | .tree _ => ((idx, st), .error "peel to commit failed")
      | .blob => ((idx, st), .error "peel to commit failed")
      | _ =>
        match enumPush fuel idx.objects repo sha with
        | none => ((idx, st), .error "enumerate_for_push failed")
        | some oids =>
          match pushGitObjects oids repo idx st with
          | ((idx1, st1), .error e) => ((idx1, st1), .error e)
          | ((idx1, st1), .ok ()) =>
            (({ idx1 with refs := insertS refDst sha idx1.refs }, st1), .ok ())

/-! ## Committing the index (src/nip_index.rs:493-505) -/

/-- `NIPIndex::ipfs_add`: serialize `self` under the current-version
header, upload, and only then set `self.prev_idx_hash` to the full
`/ipfs/<hash>` path of the blob just uploaded.  Returns (updated self,
returned hash, store). -/
def ipfsAddIdx (idx : NIPIndex) (st : IPFSState) : NIPIndex × String × IPFSState :=
  let r := ipfsAdd (.idxBlob NIP_PROTOCOL_VERSION idx) st
  ({ idx with prev_idx_hash := some ("/ipfs/" ++ r.1) }, "/ipfs/" ++ r.1, r.2)

/-! ## Loading the index (src/nip_index.rs:33-79) -/

/-- `ipfs.name_resolve` (src/util.rs:55-59). -/
def ipnsDeref (h : String) (st : IPFSState) : Option String := lookupS st.ipns h

/-- `NIPIndex::from_nip_remote` (src/nip_index.rs:33-79).  `fuel` bounds
the IPNS dereference recursion (absent from the source, which recurses
unboundedly); the `ExistingIPFS` behaviour does not depend on it.  For an
`ExistingIPFS` hash: cat the bytes, read the header version, and compare
with `NIP_PROTOCOL_VERSION` — strictly greater fails with
`"Our nip is too old"`, equal decodes, strictly less logs a migration
debug message and then decodes the payload exactly like the equal case. -/
def fromNIPRemote : Nat → NIPRemote → IPFSState → Except String NIPIndex
  | 0, _, _ => .error "ipns recursion limit"
  | _ + 1, .existingIPFS h, st =>
    match ipfsCat h st with
    | none => .error ("cat failed: " ++ h)
    | some (.idxBlob v idx) =>
      if NIP_PROTOCOL_VERSION < v then .error "Our nip is too old" else .ok idx
    | some _ => .error "CBOR decode failed"
  | fuel + 1, .existingIPNS h, st =>
    match ipnsDeref h st with
    | none => .error ("ipns resolve failed: " ++ h)
    | some path =>
      match nipRemoteFromStr path with
      | .error _ => .error ("could not parse ipns target " ++ path)
      | .ok r => fromNIPRemote fuel r st
  | _ + 1, .newIPFS, _ => .ok emptyIndex
  | _ + 1, .newIPNS, _ => .ok emptyIndex

/-! ## Fetch: enumeration (src/nip_index.rs:376-455)

The fetch-side functions take the index by mutable reference in the
source; the embedding threads the index value through every call and
returns it, so that the frame behaviour (mutated or not, on success and
on failure) is part of each function's result. -/

/-- The shas `enumerate_for_fetch` recurses into, by metadata variant
(src/nip_index.rs:403-452): commit → tree then every parent; tag →
target; tree → every entry; blob → none. -/
def childrenOfMeta : NIPObjectMetadata → List String
  | .commit parents tree => tree :: parents
  | .tag target => [target]
  | .tree entries => entries
  | .blob => []

/-- The `ret = ret.union(&self.enumerate_for_fetch(..)?)` loop of
`enumerate_for_fetch`, threading the (never written) index through the
recursive calls exactly as `&mut self` is lent to them in the source. -/
def unionFoldIdx (f : NIPIndex → String → NIPIndex × Option (List String))
    (idx : NIPIndex) (acc : List String) :
    List String → NIPIndex × Option (List String)
  | [] => (idx, some acc)
  | c :: cs =>
    match f idx c with
    | (idx1, none) => (idx1, none)
    | (idx1, some s) => unionFoldIdx f idx1 (acc.union s) cs

/-- `NIPIndex::enumerate_for_fetch` (src/nip_index.rs:376-455): if the
object is already in the local odb return the empty set; otherwise
require its wrapper hash in `objects`, download the wrapper
(`NIPObject::ipfs_get`, which rejects any version other than the current
one, src/nip_object.rs:88-106), record the sha, and union in the
enumerations of the metadata children.  `fuel` bounds the recursion. -/
def enumFetch : Nat → NIPIndex → Repo → IPFSState → String → NIPIndex × Option (List String)
  | 0, idx, _, _, _ => (idx, none)
  | fuel + 1, idx, repo, st, oid =>
    if (lookupS repo.odb oid).isSome then (idx, some [])
    else
      match lookupS idx.objects oid with
      | none => (idx, none)
      | some wrapperHash =>
        match ipfsCat wrapperHash st with
        | some (.objBlob v nobj) =>
          if v = NIP_PROTOCOL_VERSION then
            unionFoldIdx (fun i c => enumFetch fuel i repo st c) idx [oid]
              (childrenOfMeta nobj.metadata)
          else (idx, none)
        | _ => (idx, none)

/-- `NIPObject::write_raw_data` followed by the oid consistency check
(src/nip_index.rs:482-487): download the raw bytes, insert them into the
odb, and fail unless the written oid equals the expected one. -/
def writeRawData (nobj : NIPObject) (oid : String) (odb : List (String × GitObject))
    (st : IPFSState) : Except String (List (String × GitObject)) :=
  match ipfsCat nobj.raw_data_ipfs_hash st with
  | some (.rawBlob sha g) =>
    if sha = oid then .ok (insertS sha g odb)
    else .error ("Object tree inconsistency detected: fetched " ++ oid
      ++ " but write result hashes to " ++ sha)
  | _ => .error "could not cat raw data"

/-- `NIPIndex::fetch_nip_objects` (src/nip_index.rs:458-491): for each
oid, look up its wrapper hash, download and decode the wrapper, skip the
oid if already in the local odb, otherwise write the raw bytes and check
the written oid. -/
def fetchNipObjects (oids : List String) (idx : NIPIndex) (repo : Repo) (st : IPFSState) :
    (NIPIndex × Repo) × Except String Unit :=
  match oids with
  | [] => ((idx, repo), .ok ())
  | o :: rest =>
    match lookupS idx.objects o with
    | none => ((idx, repo), .error ("Could not find object " ++ o ++ " in nip index"))
    | some wh =>
      match ipfsCat wh st with
      | some (.objBlob v nobj) =>
        if v = NIP_PROTOCOL_VERSION then
          if (lookupS repo.odb o).isSome then fetchNipObjects rest idx repo st
          else
            match writeRawData nobj o repo.odb st with
            | .error e => ((idx, repo), .error e)
            | .ok odb1 => fetchNipObjects rest idx { repo with odb := odb1 } st
        else ((idx, repo), .error "Unsupported protocol version")
      | _ => ((idx, repo), .error ("could not get nip object " ++ wh))

/-- `NIPIndex::fetch_to_ref_from_str` (src/nip_index.rs:325-373): require
the sha in `objects`, enumerate, fetch, then update the local ref store
conditionally on the type the odb now reports for the sha: a commit under
a ref name starting with `"refs/tags"` and a tag leave the ref store
untouched; any other commit creates/updates the ref with reflog message
`"nip fetch"`; any other type is an error. -/
def fetchToRefFromStr (fuel : Nat) (gitHash refName : String) (idx : NIPIndex)
    (repo : Repo) (st : IPFSState) : (NIPIndex × Repo) × Except String Unit :=
  match lookupS idx.objects gitHash with
  | none => ((idx, repo), .error ("Could not find object " ++ gitHash ++ " in the nip index"))
  | some _ =>
    match enumFetch fuel idx repo st gitHash with
    | (idx1, none) => ((idx1, repo), .error "enumerate_for_fetch failed")
    | (idx1, some oids) =>
      match fetchNipObjects oids idx1 repo st with
      | ((idx2, repo2), .error e) => ((idx2, repo2), .error e)
      | ((idx2, repo2), .ok ()) =>
        match lookupS repo2.odb gitHash with
        | none => ((idx2, repo2), .error "read_header failed")
        | some (.commit _ _) =>
          if strHasLead refName "refs/tags" then ((idx2, repo2), .ok ())
          else
            ((idx2,
              { repo2 with
                refs := insertS refName gitHash repo2.refs,
                reflog := repo2.reflog ++ [(refName, gitHash, "nip fetch")] }),
             .ok ())
        | some (.tag _) => ((idx2, repo2), .ok ())
        | some g =>
          ((idx2, repo2),
           .error ("New tip turned out to be a "
             ++ (match g with | .tree _ => "tree" | _ => "blob") ++ " after fetch"))

/-! ## The protocol driver (src/git_remote_nip.rs) -/

/-- `handle_capabilities` (src/git_remote_nip.rs:114-129): the
`capabilities` line gets the capability list; any other line is only
logged (`error!`) and the function still returns `Ok(())` — the result is
(protocol output, driver result). -/
def handleCapabilities (line : String) : List String × Except String Unit :=
  if line = "capabilities\n" then (["fetch\npush\n\n"], .ok ())
  else ([], .ok ())

/-- Outcome of consuming the command line in `handle_list`
(src/git_remote_nip.rs:141-155): a `list*` line is consumed, a bare
newline exits with status 0, anything else is a fatal `bail!`. -/
inductive ListOutcome where
  | ok
  | exitZero
  | fatal (msg : String)
deriving DecidableEq

/-- The command-line match of `handle_list` (src/git_remote_nip.rs:141-155). -/
def handleListCmd (line : String) : ListOutcome :=
  if strHasLead line "list" then .ok
  else if line = "\n" then .exitZero
  else .fatal ("Expected a list command, got " ++ line)

/-- Classification of one line of the fetch/push loop
(src/git_remote_nip.rs:192-277): a `fetch*` or `push*` line is handled, the
empty line ends the batch, anything else is a fatal `bail!`. -/
inductive OpsLineClass where
  | fetchLine
  | pushLine
  | endBatch
  | fatal (msg : String)
deriving DecidableEq

/-- The line dispatch of the fetch/push loop (src/git_remote_nip.rs:194-277). -/
def classifyOpsLine (line : String) : OpsLineClass :=
  if strHasLead line "fetch" then .fetchLine
  else if strHasLead line "push" then .pushLine
  else if line = "" then .endBatch
  else .fatal ("Git unexpectedly said " ++ line ++ " during push/fetch parsing.")

/-- Refspec extraction from a push line (src/git_remote_nip.rs:225-249):
take the token after `push`, split it on `:` into source and destination,
and strip a leading `+` into the force flag.  Returns (src, dst, force);
`none` stands for the fatal `ok_or_else(..)?` paths. -/
def parsePushLine (line : String) : Option (String × String × Bool) :=
  if strHasLead line "push" then
    match (strSplit ' ' line).get? 1 with
    | none => none
    | some refspec =>
      let halves := strSplit ':' refspec
      match halves.get? 0, halves.get? 1 with
      | some firstHalf, some dst =>
        let force := strHasLead firstHalf "+"
        let src := if force then String.mk (firstHalf.data.drop 1) else firstHalf
        some (src, dst, force)
      | _, _ => none
  else none

/-- One `push <refspec>` line of the loop (src/git_remote_nip.rs:221-263):
parse the refspec (parse failures are fatal), call `push_ref_from_str`
(the parsed force flag is consumed here — the index function takes no
force parameter), and convert a push error into an
`error <dst> "<msg>"` output line, continuing the batch. -/
def handlePushLine (fuel : Nat) (line : String) (repo : Repo) (idx : NIPIndex)
    (st : IPFSState) : Except String ((NIPIndex × IPFSState) × List String) :=
  match parsePushLine line with
  | none => .error ("Could not read refspec from push line: " ++ line)
  | some (src, dst, _force) =>
    match pushRefFromStr fuel src dst repo idx st with
    | ((idx1, st1), .ok ()) => .ok ((idx1, st1), ["ok " ++ dst])
    | ((idx1, st1), .error e) =>
      .ok ((idx1, st1), ["error " ++ dst ++ " \x22" ++ e ++ "\x22"])

/-- The commit phase of `handle_fetches_and_pushes`
(src/git_remote_nip.rs:280-342): if the working index equals the index
loaded at startup nothing is uploaded and the remote URL is untouched
(`.ok none`); otherwise the index is uploaded and the remote URL is
rewritten preserving the `nipdev`/`nip` scheme prefix, any other prefix
being fatal. -/
def commitPhase (idxStart current : NIPIndex) (url : String) (st : IPFSState) :
    IPFSState × Except String (Option String) :=
  if current = idxStart then (st, .ok none)
  else
    let r := ipfsAddIdx current st
    if strHasLead url "nipdev" then (r.2.2, .ok (some ("nipdev::" ++ r.2.1)))
    else if strHasLead url "nip" then (r.2.2, .ok (some ("nip::" ++ r.2.1)))
    else (r.2.2, .error ("Remote URL " ++ url ++ " has an unknown prefix"))

/-! ## Lemmas: string helpers -/

lemma hasLead_append (p rest : List Char) : hasLead p (p ++ rest) = true := by
  induction p with
  | nil => rfl
  | cons c cs ih => simp [hasLead, ih]

lemma splitChar_no_sep (sep : Char) (l : List Char) (h : ∀ c ∈ l, ¬ c = sep) :
    splitChar sep l = [l] := by
  induction l with
  | nil => rfl
  | cons c cs ih =>
    have hc : ¬ c = sep := h c (List.mem_cons_self _ _)
    have ihcs := ih (fun x hx => h x (List.mem_cons_of_mem _ hx))
    simp [splitChar, hc, ihcs]

lemma splitChar_ipfs (t : List Char) (ht : ∀ c ∈ t, ¬ c = '/') :
    splitChar '/' ('/' :: 'i' :: 'p' :: 'f' :: 's' :: '/' :: t)
      = [[], ['i', 'p', 'f', 's'], t] := by
  have h1 := splitChar_no_sep '/' t ht
  simp [splitChar, h1]

lemma splitChar_ipns (t : List Char) (ht : ∀ c ∈ t, ¬ c = '/') :
    splitChar '/' ('/' :: 'i' :: 'p' :: 'n' :: 's' :: '/' :: t)
      = [[], ['i', 'p', 'n', 's'], t] := by
  have h1 := splitChar_no_sep '/' t ht
  simp [splitChar, h1]

lemma string_mk_data (s : String) : String.mk s.data = s := by
  cases s
  rfl

lemma ne_of_data_length {a b : String} (h : a.data.length ≠ b.data.length) : ¬ a = b := by
  intro heq
  exact h (by rw [heq])

/-! ## Claim C7: remote-address round trip -/

/-- Claim C7: remote-address parsing is a left inverse of formatting — for
every remote variant `r` (with well-formed 46-character hashes on the
`Existing-*` variants), `parse(format(r))` succeeds and returns `r`. -/
theorem c7_parse_format_roundtrip (r : NIPRemote) (hw : wellFormedRemote r) :
    nipRemoteFromStr (nipRemoteToString r) = .ok r := by
  cases r with
  | newIPFS => decide
  | newIPNS => decide
  | existingIPFS h =>
    obtain ⟨hlen, hnos⟩ := hw
    have hdata : ("/ipfs/" ++ h).data = '/' :: 'i' :: 'p' :: 'f' :: 's' :: '/' :: h.data := by
      rw [String.data_append]
      rfl
    have hlen52 : ("/ipfs/" ++ h).data.length = 52 := by
      rw [hdata]
      simp [hlen, IPFS_HASH_LEN]
    have hne1 : ¬ ("/ipfs/" ++ h : String) = "new-ipfs" :=
      ne_of_data_length (by rw [hlen52]; decide)
    have hne2 : ¬ ("/ipfs/" ++ h : String) = "new-ipns" :=
      ne_of_data_length (by rw [hlen52]; decide)
    have hlead : strHasLead ("/ipfs/" ++ h) "/ipfs/" = true := by
      unfold strHasLead
      rw [hdata]
      exact hasLead_append "/ipfs/".data h.data
    have hsplit := splitChar_ipfs h.data hnos
    simp only [nipRemoteToString, nipRemoteFromStr, if_neg hne1, if_neg hne2, hlead,
      if_pos, hdata, hsplit]
    simp [hlen, IPFS_HASH_LEN, string_mk_data]
  | existingIPNS h =>
    obtain ⟨hlen, hnos⟩ := hw
    have hdata : ("/ipns/" ++ h).data = '/' :: 'i' :: 'p' :: 'n' :: 's' :: '/' :: h.data := by
      rw [String.data_append]
      rfl
    have hlen52 : ("/ipns/" ++ h).data.length = 52 := by
      rw [hdata]
      simp [hlen, IPFS_HASH_LEN]
    have hne1 : ¬ ("/ipns/" ++ h : String) = "new-ipfs" :=
      ne_of_data_length (by rw [hlen52]; decide)
    have hne2 : ¬ ("/ipns/" ++ h : String) = "new-ipns" :=
      ne_of_data_length (by rw [hlen52]; decide)
    have hnofs : strHasLead ("/ipns/" ++ h) "/ipfs/" = false := by
      unfold strHasLead
      rw [hdata]
      simp [hasLead]
    have hlead : strHasLead ("/ipns/" ++ h) "/ipns/" = true := by
      unfold strHasLead
      rw [hdata]
      exact hasLead_append "/ipns/".data h.data
    have hsplit := splitChar_ipns h.data hnos
    simp only [nipRemoteToString, nipRemoteFromStr, if_neg hne1, if_neg hne2, hnofs,
      hlead, if_pos, hdata, hsplit]
    simp [hlen, IPFS_HASH_LEN, string_mk_data]

/-- Witness for C7 at a concrete well-formed hash. -/
theorem c7_parse_format_roundtrip_witness :
    wellFormedRemote (.existingIPFS "QmfRdhy8MuEZx1XrNfKnTSsMJMu5HsxZFxYTDphjgJngqU")
    ∧ nipRemoteFromStr
        (nipRemoteToString (.existingIPFS "QmfRdhy8MuEZx1XrNfKnTSsMJMu5HsxZFxYTDphjgJngqU"))
      = .ok (.existingIPFS "QmfRdhy8MuEZx1XrNfKnTSsMJMu5HsxZFxYTDphjgJngqU") :=
  ⟨by unfold wellFormedRemote wellFormedHash; exact ⟨by decide, by decide⟩,
   c7_parse_format_roundtrip _
     (by unfold wellFormedRemote wellFormedHash; exact ⟨by decide, by decide⟩)⟩

/-! ## Claim C8: typed parse errors -/

/-- Claim C8 counterexample: the source `InvalidLinkFormat` variant
carries no payload — parsing `"gibberish"` and parsing a different
garbage string yield the very same error value, whose display string is
the constant `"Invalid link format"`, so the error cannot carry the
offending string. -/
theorem c8_invalid_link_format_cex :
    nipRemoteFromStr "gibberish" = .error .invalidLinkFormat
    ∧ nipRemoteFromStr "some-other-garbage" = .error .invalidLinkFormat
    ∧ errDisplay .invalidLinkFormat = "Invalid link format" := by
  decide

/-- Claim C8 as amended: parsing `"gibberish"` fails with the payload-free
`InvalidLinkFormat`, and parsing `"/ipfs/QmTooShort"` fails with
`InvalidHashLength` with `got = 10` and `want = 46`. -/
theorem c8_parse_error_payloads :
    nipRemoteFromStr "gibberish" = .error .invalidLinkFormat
    ∧ nipRemoteFromStr "/ipfs/QmTooShort" = .error (.invalidHashLength 10 46) := by
  decide

/-! ## Claim C4: enumerate_for_push

`PushReach objects repo root x` is the specification-side reachability
predicate: `x` is reachable from `root` along child edges such that every
node on the path (including `root` and `x`) is missing from `objects` —
i.e. the whole subtree under an already-indexed object is pruned. -/

inductive PushReach (objects : List (String × String)) (repo : Repo) (root : String) :
    String → Prop
  | refl : lookupS objects root = none → PushReach objects repo root root
  | step {x c : String} {g : GitObject} : PushReach objects repo root x →
      lookupS repo.odb x = some g → c ∈ childrenOfGit g →
      lookupS objects c = none → PushReach objects repo root c

lemma pushReach_root_not_indexed {objects : List (String × String)} {repo : Repo}
    {root x : String} (h : PushReach objects repo root x) : lookupS objects root = none := by
  induction h with
  | refl h0 => exact h0
  | step _ _ _ _ ih => exact ih

lemma pushReach_of_child {objects : List (String × String)} {repo : Repo}
    {root c x : String} {g : GitObject}
    (hroot : lookupS objects root = none) (hg : lookupS repo.odb root = some g)
    (hc : c ∈ childrenOfGit g) (h : PushReach objects repo c x) :
    PushReach objects repo root x := by
  induction h with
  | refl h0 => exact PushReach.step (PushReach.refl hroot) hg hc h0
  | step _ hg2 hc2 hn2 ih => exact PushReach.step ih hg2 hc2 hn2

lemma pushReach_decomp {objects : List (String × String)} {repo : Repo}
    {root x : String} (h : PushReach objects repo root x) :
    x = root ∨ ∃ g c, lookupS repo.odb root = some g ∧ c ∈ childrenOfGit g
      ∧ lookupS objects c = none ∧ PushReach objects repo c x := by
  induction h with
  | refl _ => exact Or.inl rfl
  | step h1 hg hc hn ih =>
    rcases ih with rfl | ⟨g2, c2, hg2, hc2, hn2, hr2⟩
    · exact Or.inr ⟨_, _, hg, hc, hn, PushReach.refl hn⟩
    · exact Or.inr ⟨g2, c2, hg2, hc2, hn2, PushReach.step hr2 hg hc hn⟩

lemma unionFold_some_of_mem {f : String → Option (List String)} {acc cs : List String}
    {s : List String} (h : unionFold f acc cs = some s) {c : String} (hc : c ∈ cs) :
    ∃ sc, f c = some sc := by
  induction cs generalizing acc with
  | nil => cases hc
  | cons c0 rest ih =>
    rw [unionFold] at h
    cases hf : f c0 with
    | none => rw [hf] at h; cases h
    | some s0 =>
      rw [hf] at h
      rcases List.mem_cons.mp hc with rfl | hcm
      · exact ⟨s0, hf⟩
      · exact ih h hcm

lemma mem_list_union {α : Type} [DecidableEq α] {a : α} {l₁ l₂ : List α} :
    a ∈ l₁.union l₂ ↔ a ∈ l₁ ∨ a ∈ l₂ :=
  List.mem_union_iff

lemma unionFold_mem {f : String → Option (List String)} {acc cs : List String}
    {s : List String} (h : unionFold f acc cs = some s) (x : String) :
    x ∈ s ↔ x ∈ acc ∨ ∃ c ∈ cs, ∃ sc, f c = some sc ∧ x ∈ sc := by
  induction cs generalizing acc with
  | nil =>
    rw [unionFold] at h
    injection h with h
    subst h
    simp
  | cons c0 rest ih =>
    rw [unionFold] at h
    cases hf : f c0 with
    | none => rw [hf] at h; cases h
    | some s0 =>
      rw [hf] at h
      rw [ih h, mem_list_union]
      constructor
      · rintro ((hx | hx) | ⟨c, hcmem, sc, hfc, hxsc⟩)
        · exact Or.inl hx
        · exact Or.inr ⟨c0, List.mem_cons_self _ _, s0, hf, hx⟩
        · exact Or.inr ⟨c, List.mem_cons_of_mem _ hcmem, sc, hfc, hxsc⟩
      · rintro (hx | ⟨c, hcmem, sc, hfc, hxsc⟩)
        · exact Or.inl (Or.inl hx)
        · rcases List.mem_cons.mp hcmem with rfl | hcm
          · rw [hf] at hfc
            injection hfc with e
            subst e
            exact Or.inl (Or.inr hxsc)
          · exact Or.inr ⟨c, hcm, sc, hfc, hxsc⟩

lemma unionFold_nodup {f : String → Option (List String)} {acc cs : List String}
    {s : List String} (hacc : acc.Nodup) (hf : ∀ c sc, f c = some sc → sc.Nodup)
    (h : unionFold f acc cs = some s) : s.Nodup := by
  induction cs generalizing acc with
  | nil =>
    rw [unionFold] at h
    injection h with h
    subst h
    exact hacc
  | cons c0 rest ih =>
    rw [unionFold] at h
    cases hf0 : f c0 with
    | none => rw [hf0] at h; cases h
    | some s0 =>
      rw [hf0] at h
      exact ih (List.Nodup.union acc (hf c0 s0 hf0)) h

lemma enumPush_spec : ∀ (fuel : Nat) (objects : List (String × String)) (repo : Repo)
    (sha : String) (s : List String), enumPush fuel objects repo sha = some s →
    s.Nodup ∧ ∀ x, (x ∈ s ↔ PushReach objects repo sha x) := by
  intro fuel
  induction fuel with
  | zero => intro objects repo sha s h; cases h
  | succ n ih =>
    intro objects repo sha s h
    rw [enumPush] at h
    by_cases hidx : (lookupS objects sha).isSome
    · rw [if_pos hidx] at h
      injection h with h
      subst h
      refine ⟨List.nodup_nil, fun x => ?_⟩
      simp only [List.not_mem_nil, false_iff]
      intro hr
      rw [pushReach_root_not_indexed hr] at hidx
      cases hidx
    · rw [if_neg hidx] at h
      cases hodb : lookupS repo.odb sha with
      | none => rw [hodb] at h; cases h
      | some g =>
        rw [hodb] at h
        have hnone : lookupS objects sha = none := by
          cases hl : lookupS objects sha with
          | none => rfl
          | some v => rw [hl] at hidx; cases hidx rfl
        have hnodup : s.Nodup :=
          unionFold_nodup (by simp) (fun c sc hc => (ih objects repo c sc hc).1) h
        refine ⟨hnodup, fun x => ?_⟩
        rw [unionFold_mem h x]
        constructor
        · rintro (hx | ⟨c, hcmem, sc, hfc, hxsc⟩)
          · rw [List.mem_singleton] at hx
            subst hx
            exact PushReach.refl hnone
          · exact pushReach_of_child hnone hodb hcmem
              (((ih objects repo c sc hfc).2 x).mp hxsc)
        · intro hr
          rcases pushReach_decomp hr with rfl | ⟨g2, c, hg2, hc2, hn2, hrc⟩
          · exact Or.inl (List.mem_singleton.mpr rfl)
          · rw [hodb] at hg2
            injection hg2 with e
            subst e
            obtain ⟨sc, hfc⟩ := unionFold_some_of_mem h hc2
            exact Or.inr ⟨c, hc2, sc, hfc, ((ih objects repo c sc hfc).2 x).mpr hrc⟩

/-- Claim C4: `enumerate_for_push` returns the empty set when the object's
sha is already a key of `objects`; otherwise it returns a duplicate-free
set containing the sha, and membership is exactly reachability along
child edges (commit → tree and parents, tree → entries, tag → target,
blob → nothing) with the entire subtree under any already-indexed object
pruned (`PushReach`). -/
theorem c4_enumerate_for_push_spec (fuel : Nat) (objects : List (String × String))
    (repo : Repo) (sha : String) (s : List String)
    (h : enumPush fuel objects repo sha = some s) :
    s.Nodup
    ∧ ((lookupS objects sha).isSome → s = [])
    ∧ (lookupS objects sha = none → sha ∈ s)
    ∧ (∀ x, x ∈ s ↔ PushReach objects repo sha x) := by
  obtain ⟨hnd, hiff⟩ := enumPush_spec fuel objects repo sha s h
  refine ⟨hnd, ?_, ?_, hiff⟩
  · intro hsome
    rw [List.eq_nil_iff_forall_not_mem]
    intro x hx
    rw [pushReach_root_not_indexed ((hiff x).mp hx)] at hsome
    cases hsome
  · intro hnone
    exact (hiff sha).mpr (PushReach.refl hnone)

/-- Concrete repo for the C4 witness: one commit with one tree holding one
blob. -/
def c4wRepo : Repo :=
  { odb := [("b1", .blob), ("c1", .commit "t1" []), ("t1", .tree ["b1"])],
    refs := [("refs/heads/master", "c1")],
    reflog := [] }

/-- Witness for C4 on `c4wRepo` with an empty index. -/
theorem c4_enumerate_for_push_witness :
    (["c1", "t1", "b1"] : List String).Nodup
    ∧ ((lookupS ([] : List (String × String)) "c1").isSome → ["c1", "t1", "b1"] = ([] : List String))
    ∧ (lookupS ([] : List (String × String)) "c1" = none → "c1" ∈ (["c1", "t1", "b1"] : List String))
    ∧ (∀ x, x ∈ (["c1", "t1", "b1"] : List String) ↔ PushReach [] c4wRepo "c1" x) :=
  c4_enumerate_for_push_spec 4 [] c4wRepo "c1" ["c1", "t1", "b1"] (by decide)

/-! ## Lemmas: map model -/

lemma lookup_insertS_self {α : Type} (k : String) (v : α) (m : List (String × α)) :
    lookupS (insertS k v m) k = some v := by
  induction m with
  | nil => simp [insertS, lookupS]
  | cons e rest ih =>
    obtain ⟨k2, v2⟩ := e
    rw [insertS]
    by_cases hlt : keyLt k k2 = true
    · simp [hlt, lookupS]
    · by_cases heq : k = k2
      · subst heq
        simp [hlt, lookupS]
      · simp [hlt, heq, lookupS, ih]

lemma lookup_insertS_ne {α : Type} (k k2 : String) (v : α) (m : List (String × α))
    (hne : ¬ k2 = k) : lookupS (insertS k v m) k2 = lookupS m k2 := by
  induction m with
  | nil => simp [insertS, lookupS, hne]
  | cons e rest ih =>
    obtain ⟨k3, v3⟩ := e
    rw [insertS]
    by_cases hlt : keyLt k k3 = true
    · simp only [if_pos hlt, lookupS, if_neg hne]
    · by_cases heq : k = k3
      · subst heq
        simp only [if_neg hlt, if_pos rfl, lookupS, if_neg hne]
      · simp only [if_neg hlt, if_neg heq, lookupS]
        by_cases h3 : k2 = k3
        · simp [h3]
        · simp [h3, ih]

lemma lookup_insertS_isSome {α : Type} (k k2 : String) (v : α) (m : List (String × α))
    (h : (lookupS m k2).isSome) : (lookupS (insertS k v m) k2).isSome := by
  by_cases heq : k2 = k
  · subst heq
    rw [lookup_insertS_self]
    rfl
  · rw [lookup_insertS_ne k k2 v m heq]
    exact h

/-! ## Lemmas: push_git_objects -/

lemma pushGitObjects_refs (oids : List String) (repo : Repo) (idx : NIPIndex)
    (st : IPFSState) : (pushGitObjects oids repo idx st).1.1.refs = idx.refs := by
  induction oids generalizing idx st with
  | nil => rfl
  | cons o rest ih =>
    rw [pushGitObjects]
    cases lookupS repo.odb o with
    | none => rfl
    | some g =>
      by_cases hc : (lookupS idx.objects o).isSome
      · simp only [if_pos hc]
        exact ih idx st
      · simp only [if_neg hc]
        exact ih _ _

lemma pushGitObjects_prev (oids : List String) (repo : Repo) (idx : NIPIndex)
    (st : IPFSState) :
    (pushGitObjects oids repo idx st).1.1.prev_idx_hash = idx.prev_idx_hash := by
  induction oids generalizing idx st with
  | nil => rfl
  | cons o rest ih =>
    rw [pushGitObjects]
    cases lookupS repo.odb o with
    | none => rfl
    | some g =>
      by_cases hc : (lookupS idx.objects o).isSome
      · simp only [if_pos hc]
        exact ih idx st
      · simp only [if_neg hc]
        exact ih _ _

lemma pushGitObjects_mono (oids : List String) (repo : Repo) (idx : NIPIndex)
    (st : IPFSState) (k : String) (h : (lookupS idx.objects k).isSome) :
    (lookupS (pushGitObjects oids repo idx st).1.1.objects k).isSome := by
  induction oids generalizing idx st with
  | nil => exact h
  | cons o rest ih =>
    rw [pushGitObjects]
    cases lookupS repo.odb o with
    | none => exact h
    | some g =>
      by_cases hc : (lookupS idx.objects o).isSome
      · simp only [if_pos hc]
        exact ih idx st h
      · simp only [if_neg hc]
        exact ih _ _ (lookup_insertS_isSome _ _ _ _ h)

lemma pushGitObjects_covers : ∀ (oids : List String) (repo : Repo) (idx : NIPIndex)
    (st : IPFSState) (idxp : NIPIndex) (stp : IPFSState),
    pushGitObjects oids repo idx st = ((idxp, stp), .ok ()) →
    ∀ o ∈ oids, (lookupS idxp.objects o).isSome := by
  intro oids
  induction oids with
  | nil =>
    intro repo idx st idxp stp h o ho
    cases ho
  | cons o0 rest ih =>
    intro repo idx st idxp stp h o ho
    rw [pushGitObjects] at h
    cases hodb : lookupS repo.odb o0 with
    | none => rw [hodb] at h; simp at h
    | some g =>
      rw [hodb] at h
      have h1 : (if (lookupS idx.objects o0).isSome then pushGitObjects rest repo idx st else pushGitObjects rest repo { idx with objects := insertS o0 ("/ipfs/" ++ (ipfsAdd (IPFSBlob.objBlob NIP_PROTOCOL_VERSION (nipObjectOfGit o0 g st).1) (nipObjectOfGit o0 g st).2).1) idx.objects } (ipfsAdd (IPFSBlob.objBlob NIP_PROTOCOL_VERSION (nipObjectOfGit o0 g st).1) (nipObjectOfGit o0 g st).2).2) = ((idxp, stp), Except.ok ()) := h
      by_cases hc : (lookupS idx.objects o0).isSome
      · rw [if_pos hc] at h1
        rcases List.mem_cons.mp ho with rfl | hm
        · have hm0 := pushGitObjects_mono rest repo idx st o hc
          rw [h1] at hm0
          exact hm0
        · exact ih repo idx st idxp stp h1 o hm
      · rw [if_neg hc] at h1
        rcases List.mem_cons.mp ho with rfl | hm
        · have hm0 := pushGitObjects_mono rest repo { idx with objects := insertS o ("/ipfs/" ++ (ipfsAdd (IPFSBlob.objBlob NIP_PROTOCOL_VERSION (nipObjectOfGit o g st).1) (nipObjectOfGit o g st).2).1) idx.objects } (ipfsAdd (IPFSBlob.objBlob NIP_PROTOCOL_VERSION (nipObjectOfGit o g st).1) (nipObjectOfGit o g st).2).2 o (by rw [lookup_insertS_self]; rfl)
          rw [h1] at hm0
          exact hm0
        · exact ih repo _ _ idxp stp h1 o hm

/-! ## Claim C1: non-fast-forward handling -/

/-- Repo for the first C1 push: a single root commit `aa`. -/
def c1RepoOld : Repo :=
  { odb := [("aa", .commit "ta" []), ("ta", .tree [])],
    refs := [("refs/heads/master", "aa")],
    reflog := [] }

/-- First C1 push: `aa` into an empty index over an empty store. -/
def c1Push1 : (NIPIndex × IPFSState) × Except String Unit :=
  pushRefFromStr 4 "refs/heads/master" "refs/heads/master" c1RepoOld emptyIndex
    { blobs := [], ipns := [] }

def c1IdxA : NIPIndex := c1Push1.1.1

def c1StA : IPFSState := c1Push1.1.2

/-- Repo for the second C1 push: `master` now points at the sibling
commit `bb`, whose history does not contain `aa`. -/
def c1RepoNew : Repo :=
  { odb := [("aa", .commit "ta" []), ("ta", .tree []),
            ("bb", .commit "tb" []), ("tb", .tree [])],
    refs := [("refs/heads/master", "bb")],
    reflog := [] }

/-- Second C1 push: the non-descendant tip `bb` over the index that maps
`master` to `aa`, exactly what the driver runs for the forceless refspec
`refs/heads/master:refs/heads/master`. -/
def c1Push2 : (NIPIndex × IPFSState) × Except String Unit :=
  pushRefFromStr 4 "refs/heads/master" "refs/heads/master" c1RepoNew c1IdxA c1StA

/-- Claim C1 counterexample: the destination ref already maps to `aa`, the
new tip `bb` does not reach `aa`, the push is not forced — yet
`push_ref_from_str` (which has no force parameter and performs no
ancestry check) succeeds and replaces the ref map entry instead of
failing with `NonFastForward` and leaving `refs` unchanged. -/
theorem c1_no_fast_forward_check_cex :
    lookupS c1IdxA.refs "refs/heads/master" = some "aa"
    ∧ ¬ PushReach [] c1RepoNew "bb" "aa"
    ∧ c1Push2.2 = .ok ()
    ∧ lookupS c1Push2.1.1.refs "refs/heads/master" = some "bb" := by
  refine ⟨by decide, ?_, by decide, by decide⟩
  intro hr
  have h1 : enumPush 4 [] c1RepoNew "bb" = some ["bb", "tb"] := by decide
  have h2 := ((enumPush_spec 4 [] c1RepoNew "bb" ["bb", "tb"] h1).2 "aa").mpr hr
  exact absurd h2 (by decide)

/-- Claim C1 as amended: `push_ref_from_str` takes no force flag and never
checks ancestry — whenever it succeeds, the source ref's tip is written
over the destination entry of the ref map, regardless of what the entry
held before. -/
theorem c1_push_replaces_ref (fuel : Nat) (src dst : String) (repo : Repo)
    (idx : NIPIndex) (st : IPFSState) (idx1 : NIPIndex) (st1 : IPFSState)
    (h : pushRefFromStr fuel src dst repo idx st = ((idx1, st1), .ok ())) :
    ∃ tip, lookupS repo.refs src = some tip
      ∧ idx1.refs = insertS dst tip idx.refs
      ∧ lookupS idx1.refs dst = some tip := by
  rw [pushRefFromStr] at h
  split at h
  · simp at h
  next sha href =>
    split at h
    · simp at h
    next g hodb =>
      split at h
      · simp at h
      · simp at h
      · split at h
        · simp at h
        next oids henum =>
          split at h
          · simp at h
          next idxp stp hpush =>
            simp only [Prod.mk.injEq] at h
            obtain ⟨⟨hidx, _⟩, _⟩ := h
            have hrefs : idxp.refs = idx.refs := by
              have t := pushGitObjects_refs oids repo idx st
              rw [hpush] at t
              exact t
            refine ⟨sha, href, ?_, ?_⟩
            · rw [← hidx]
              show insertS dst sha idxp.refs = insertS dst sha idx.refs
              rw [hrefs]
            · rw [← hidx]
              show lookupS (insertS dst sha idxp.refs) dst = some sha
              exact lookup_insertS_self _ _ _

/-- Witness for the amended C1 at the concrete non-fast-forward push. -/
theorem c1_push_replaces_ref_witness :
    ∃ tip, lookupS c1RepoNew.refs "refs/heads/master" = some tip
      ∧ c1Push2.1.1.refs = insertS "refs/heads/master" tip c1IdxA.refs
      ∧ lookupS c1Push2.1.1.refs "refs/heads/master" = some tip :=
  c1_push_replaces_ref 4 "refs/heads/master" "refs/heads/master" c1RepoNew c1IdxA c1StA
    c1Push2.1.1 c1Push2.1.2 (by decide)

/-! ## Claim C2: prev_idx_hash on commit -/

/-- A loaded index with one ref and one object, `prev_idx_hash = none`. -/
def c2Idx1 : NIPIndex :=
  { refs := [("refs/heads/master", "aa")],
    objects := [("aa", "/ipfs/QmX")],
    prev_idx_hash := none }

/-- First index upload (first push's commit phase) over an empty store. -/
def c2Add1 : NIPIndex × String × IPFSState :=
  ipfsAddIdx c2Idx1 { blobs := [], ipns := [] }

/-- The index of the second invocation after a further non-empty change
(as reloaded from the first upload, so `prev_idx_hash = none` again). -/
def c2Idx2 : NIPIndex :=
  { refs := insertS "refs/heads/dev" "bb" c2Idx1.refs,
    objects := insertS "bb" "/ipfs/QmY" c2Idx1.objects,
    prev_idx_hash := none }

/-- Second index upload. -/
def c2Add2 : NIPIndex × String × IPFSState := ipfsAddIdx c2Idx2 c2Add1.2.2

/-- Claim C2 counterexample: `ipfs_add` serializes first and assigns
`prev_idx_hash` afterwards, so after two successive pushes with non-empty
changes (second index reloaded from the first upload) the second uploaded
payload records `prev_idx_hash = none`, not the store hash of the first
uploaded index. -/
theorem c2_prev_idx_hash_cex :
    c2Add1.2.1 = "/ipfs/Qm0"
    ∧ fromNIPRemote 1 (.existingIPFS "Qm0") c2Add1.2.2 = .ok c2Idx1
    ∧ ipfsCat c2Add2.2.1 c2Add2.2.2 = some (.idxBlob 1 c2Idx2)
    ∧ c2Idx2.prev_idx_hash = none
    ∧ ¬ c2Idx2.prev_idx_hash = some c2Add1.2.1 := by
  decide

/-- Claim C2 as amended: `ipfs_add` serializes the index with its
`prev_idx_hash` unchanged and only afterwards sets `prev_idx_hash` to the
`/ipfs/` path of the blob just uploaded; hence only a second `ipfs_add`
on the same in-memory index records the first upload's hash, while the
payload of any single upload carries the pre-call value. -/
theorem c2_ipfs_add_sets_prev_after (idx : NIPIndex) (st : IPFSState) :
    (ipfsAddIdx idx st).2.2.blobs
      = st.blobs ++ [(ipfsName st.blobs.length, .idxBlob NIP_PROTOCOL_VERSION idx)]
    ∧ (ipfsAddIdx idx st).2.1 = "/ipfs/" ++ ipfsName st.blobs.length
    ∧ (ipfsAddIdx idx st).1
      = { idx with prev_idx_hash := some ("/ipfs/" ++ ipfsName st.blobs.length) }
    ∧ (ipfsAddIdx (ipfsAddIdx idx st).1 (ipfsAddIdx idx st).2.2).2.2.blobs
      = st.blobs
        ++ [(ipfsName st.blobs.length, .idxBlob NIP_PROTOCOL_VERSION idx),
            (ipfsName (st.blobs.length + 1),
             .idxBlob NIP_PROTOCOL_VERSION
               { idx with prev_idx_hash := some ("/ipfs/" ++ ipfsName st.blobs.length) })] := by
  refine ⟨rfl, rfl, rfl, ?_⟩
  simp [ipfsAddIdx, ipfsAdd]

/-! ## Claim C6: version ordering policy on load -/

/-- Payload stored behind the C6 remotes. -/
def c6IdxPayload : NIPIndex :=
  { refs := [("refs/heads/master", "aa")], objects := [], prev_idx_hash := none }

/-- A store holding an index whose header version is 2 (one ahead). -/
def c6StTooNew : IPFSState :=
  { blobs := [("QmA", .idxBlob 2 c6IdxPayload)], ipns := [] }

/-- A store holding an index whose header version is 0 (one behind). -/
def c6StOld : IPFSState :=
  { blobs := [("QmB", .idxBlob 0 c6IdxPayload)], ipns := [] }

/-- Claim C6 counterexample: a version-2 index makes the load fail, but
with the message `"Our nip is too old"`, not `"Our helper is too old"`;
and a version-0 index is decoded directly — the load returns the stored
payload unchanged, no migration transformation being applied (none exists
in src/src/nip_index.rs:49-62). -/
theorem c6_too_new_message_cex :
    fromNIPRemote 1 (.existingIPFS "QmA") c6StTooNew = .error "Our nip is too old"
    ∧ ¬ fromNIPRemote 1 (.existingIPFS "QmA") c6StTooNew = .error "Our helper is too old"
    ∧ fromNIPRemote 1 (.existingIPFS "QmB") c6StOld = .ok c6IdxPayload := by
  decide

/-- Claim C6 as amended: loading from an existing immutable remote
compares the stored header version with the current one — strictly
greater fails with `"Our nip is too old"`, equal decodes the payload
directly, and strictly less logs a migration debug message and then also
decodes the payload directly (no migration function is applied). -/
theorem c6_version_policy (h : String) (st : IPFSState) (v : Nat) (idx : NIPIndex)
    (fuel : Nat) (hcat : ipfsCat h st = some (.idxBlob v idx)) :
    (NIP_PROTOCOL_VERSION < v →
      fromNIPRemote (fuel + 1) (.existingIPFS h) st = .error "Our nip is too old")
    ∧ (v = NIP_PROTOCOL_VERSION →
      fromNIPRemote (fuel + 1) (.existingIPFS h) st = .ok idx)
    ∧ (v < NIP_PROTOCOL_VERSION →
      fromNIPRemote (fuel + 1) (.existingIPFS h) st = .ok idx) := by
  refine ⟨?_, ?_, ?_⟩ <;> intro hv <;> simp only [fromNIPRemote, hcat]
  · rw [if_pos hv]
  · rw [if_neg (by omega)]
  · rw [if_neg (by omega)]

/-- Witness for the amended C6: the one-version-older index loads as the
stored payload. -/
theorem c6_version_policy_witness :
    fromNIPRemote 1 (.existingIPFS "QmB") c6StOld = .ok c6IdxPayload :=
  (c6_version_policy "QmB" c6StOld 0 c6IdxPayload 0 (by decide)).2.2 (by decide)

/-! ## Claim C5: conditional ref update after fetch -/

lemma fetchNipObjects_ref_frame : ∀ (oids : List String) (idx : NIPIndex) (repo : Repo)
    (st : IPFSState) (idx2 : NIPIndex) (repo2 : Repo) (r : Except String Unit),
    fetchNipObjects oids idx repo st = ((idx2, repo2), r) →
    repo2.refs = repo.refs ∧ repo2.reflog = repo.reflog := by
  intro oids
  induction oids with
  | nil =>
    intro idx repo st idx2 repo2 r h
    rw [fetchNipObjects] at h
    simp only [Prod.mk.injEq] at h
    obtain ⟨⟨_, hrepo⟩, _⟩ := h
    subst hrepo
    exact ⟨rfl, rfl⟩
  | cons o rest ih =>
    intro idx repo st idx2 repo2 r h
    rw [fetchNipObjects] at h
    cases hlk : lookupS idx.objects o with
    | none =>
      simp only [hlk, Prod.mk.injEq] at h
      obtain ⟨⟨_, hrepo⟩, _⟩ := h
      subst hrepo
      exact ⟨rfl, rfl⟩
    | some wh =>
      simp only [hlk] at h
      cases hcat : ipfsCat wh st with
      | none =>
        simp only [hcat, Prod.mk.injEq] at h
        obtain ⟨⟨_, hrepo⟩, _⟩ := h
        subst hrepo
        exact ⟨rfl, rfl⟩
      | some b =>
        simp only [hcat] at h
        cases b with
        | idxBlob v p =>
          simp only [Prod.mk.injEq] at h
          obtain ⟨⟨_, hrepo⟩, _⟩ := h
          subst hrepo
          exact ⟨rfl, rfl⟩
        | rawBlob s g =>
          simp only [Prod.mk.injEq] at h
          obtain ⟨⟨_, hrepo⟩, _⟩ := h
          subst hrepo
          exact ⟨rfl, rfl⟩
        | objBlob v nobj =>
          have h2 : (if v = NIP_PROTOCOL_VERSION then
              (if (lookupS repo.odb o).isSome then fetchNipObjects rest idx repo st
               else
                 match writeRawData nobj o repo.odb st with
                 | .error e => ((idx, repo), Except.error e)
                 | .ok odb1 => fetchNipObjects rest idx { repo with odb := odb1 } st)
            else ((idx, repo), Except.error "Unsupported protocol version"))
            = ((idx2, repo2), r) := h
          by_cases hv : v = NIP_PROTOCOL_VERSION
          · rw [if_pos hv] at h2
            by_cases hodb : (lookupS repo.odb o).isSome
            · rw [if_pos hodb] at h2
              exact ih idx repo st idx2 repo2 r h2
            · rw [if_neg hodb] at h2
              cases hw : writeRawData nobj o repo.odb st with
              | error e =>
                simp only [hw, Prod.mk.injEq] at h2
                obtain ⟨⟨_, hrepo⟩, _⟩ := h2
                subst hrepo
                exact ⟨rfl, rfl⟩
              | ok odb1 =>
                simp only [hw] at h2
                exact ih idx { repo with odb := odb1 } st idx2 repo2 r h2
          · rw [if_neg hv] at h2
            simp only [Prod.mk.injEq] at h2
            obtain ⟨⟨_, hrepo⟩, _⟩ := h2
            subst hrepo
            exact ⟨rfl, rfl⟩

/-- Claim C5 as amended: on a successful fetch, the ref store is updated
conditionally on the type the odb reports for the fetched sha — an
annotated tag leaves the ref store untouched; a commit whose ref name
starts with `"refs/tags"` (no trailing slash in the source) also leaves
it untouched; any other commit creates/updates the ref to the fetched
sha with reflog message `"nip fetch"`. -/
theorem c5_fetch_ref_update_policy (fuel : Nat) (gitHash refName : String)
    (idx : NIPIndex) (repo : Repo) (st : IPFSState) (idx2 : NIPIndex) (repo2 : Repo)
    (h : fetchToRefFromStr fuel gitHash refName idx repo st = ((idx2, repo2), .ok ())) :
    (∀ t, lookupS repo2.odb gitHash = some (.tag t) →
      repo2.refs = repo.refs ∧ repo2.reflog = repo.reflog)
    ∧ (∀ tr ps, lookupS repo2.odb gitHash = some (.commit tr ps) →
        strHasLead refName "refs/tags" = true →
        repo2.refs = repo.refs ∧ repo2.reflog = repo.reflog)
    ∧ (∀ tr ps, lookupS repo2.odb gitHash = some (.commit tr ps) →
        strHasLead refName "refs/tags" = false →
        repo2.refs = insertS refName gitHash repo.refs
        ∧ repo2.reflog = repo.reflog ++ [(refName, gitHash, "nip fetch")]) := by
  rw [fetchToRefFromStr] at h
  split at h
  · simp at h
  · split at h
    · simp at h
    next idx1 oids henum =>
      split at h
      · simp at h
      next idxm repom hfetch =>
        have hframe : repom.refs = repo.refs ∧ repom.reflog = repo.reflog :=
          fetchNipObjects_ref_frame oids idx1 repo st idxm repom _ hfetch
        split at h
        · simp at h
        next tr ps hodb =>
          split at h
          · -- commit under refs/tags: repo untouched
            next htags =>
            simp only [Prod.mk.injEq] at h
            obtain ⟨⟨_, hrepo⟩, _⟩ := h
            subst hrepo
            refine ⟨?_, ?_, ?_⟩
            · intro t ht
              rw [hodb] at ht
              cases ht
            · intro tr2 ps2 _ _
              exact hframe
            · intro tr2 ps2 _ hfalse
              rw [hfalse] at htags
              cases htags
          · -- plain commit: ref created with "nip fetch"
            next htags =>
            simp only [Prod.mk.injEq] at h
            obtain ⟨⟨_, hrepo⟩, _⟩ := h
            have hodb2 : lookupS repo2.odb gitHash = some (.commit tr ps) := by
              rw [← hrepo]
              exact hodb
            refine ⟨?_, ?_, ?_⟩
            · intro t ht
              rw [hodb2] at ht
              cases ht
            · intro tr2 ps2 _ htrue
              rw [htrue] at htags
              cases htags rfl
            · intro tr2 ps2 _ _
              constructor
              · rw [← hrepo]
                show insertS refName gitHash repom.refs = insertS refName gitHash repo.refs
                rw [hframe.1]
              · rw [← hrepo]
                show repom.reflog ++ [(refName, gitHash, "nip fetch")]
                  = repo.reflog ++ [(refName, gitHash, "nip fetch")]
                rw [hframe.2]
        next tg hodb =>
          -- annotated tag: repo untouched
          simp only [Prod.mk.injEq] at h
          obtain ⟨⟨_, hrepo⟩, _⟩ := h
          subst hrepo
          refine ⟨?_, ?_, ?_⟩
          · intro t _
            exact hframe
          · intro tr2 ps2 ht _
            rw [hodb] at ht
            cases ht
          · intro tr2 ps2 ht _
            rw [hodb] at ht
            cases ht
        · simp at h

/-- Repo for the C5 runs: the fetched commit is already present locally,
so the run only exercises the ref-update decision. -/
def c5Repo : Repo := { odb := [("cc", .commit "tt" [])], refs := [], reflog := [] }

def c5Idx : NIPIndex :=
  { refs := [], objects := [("cc", "/ipfs/QmW")], prev_idx_hash := none }

def c5St : IPFSState := { blobs := [], ipns := [] }

/-- C5 run on a branch ref name. -/
def c5Run : (NIPIndex × Repo) × Except String Unit :=
  fetchToRefFromStr 2 "cc" "refs/heads/master" c5Idx c5Repo c5St

/-- C5 run on a ref name that starts with `refs/tags` but not `refs/tags/`. -/
def c5RunTagsy : (NIPIndex × Repo) × Except String Unit :=
  fetchToRefFromStr 2 "cc" "refs/tagsXYZ" c5Idx c5Repo c5St

/-- Claim C5 counterexample: fetching a commit for a branch ref writes the
reflog message `"nip fetch"`, not `"helper fetch"`; and for the commit
ref name `"refs/tagsXYZ"`, which does not start with `"refs/tags/"`, the
code still skips the ref creation (its check is the slashless
`"refs/tags"`), so no ref is created where the claim requires one. -/
theorem c5_reflog_message_cex :
    c5Run.2 = .ok ()
    ∧ c5Run.1.2.reflog = [("refs/heads/master", "cc", "nip fetch")]
    ∧ ¬ c5Run.1.2.reflog = [("refs/heads/master", "cc", "helper fetch")]
    ∧ strHasLead "refs/tagsXYZ" "refs/tags/" = false
    ∧ c5RunTagsy.2 = .ok ()
    ∧ c5RunTagsy.1.2.refs = c5Repo.refs := by
  decide

/-- Witness for the amended C5 at the concrete branch-ref fetch. -/
theorem c5_fetch_ref_update_policy_witness :
    (∀ t, lookupS c5Run.1.2.odb "cc" = some (.tag t) →
      c5Run.1.2.refs = c5Repo.refs ∧ c5Run.1.2.reflog = c5Repo.reflog)
    ∧ (∀ tr ps, lookupS c5Run.1.2.odb "cc" = some (.commit tr ps) →
        strHasLead "refs/heads/master" "refs/tags" = true →
        c5Run.1.2.refs = c5Repo.refs ∧ c5Run.1.2.reflog = c5Repo.reflog)
    ∧ (∀ tr ps, lookupS c5Run.1.2.odb "cc" = some (.commit tr ps) →
        strHasLead "refs/heads/master" "refs/tags" = false →
        c5Run.1.2.refs = insertS "refs/heads/master" "cc" c5Repo.refs
        ∧ c5Run.1.2.reflog = c5Repo.reflog ++ [("refs/heads/master", "cc", "nip fetch")]) :=
  c5_fetch_ref_update_policy 2 "cc" "refs/heads/master" c5Idx c5Repo c5St
    c5Run.1.1 c5Run.1.2 (by decide)

/-! ## Claim C10: the fetch path never mutates the index -/

lemma unionFoldIdx_idx_frame (f : NIPIndex → String → NIPIndex × Option (List String))
    (hf : ∀ i c i2 r2, f i c = (i2, r2) → i2 = i) :
    ∀ (cs : List String) (idx : NIPIndex) (acc : List String) (idx2 : NIPIndex)
      (r : Option (List String)), unionFoldIdx f idx acc cs = (idx2, r) → idx2 = idx := by
  intro cs
  induction cs with
  | nil =>
    intro idx acc idx2 r h
    rw [unionFoldIdx] at h
    simp only [Prod.mk.injEq] at h
    exact h.1.symm
  | cons c cs ih =>
    intro idx acc idx2 r h
    rw [unionFoldIdx] at h
    cases hfc : f idx c with
    | mk i1 res =>
      have hi1 : i1 = idx := hf idx c i1 res hfc
      cases res with
      | none =>
        simp only [hfc, Prod.mk.injEq] at h
        rw [← h.1, hi1]
      | some s =>
        simp only [hfc] at h
        rw [ih i1 (acc.union s) idx2 r h, hi1]

lemma enumFetch_idx_frame : ∀ (fuel : Nat) (idx : NIPIndex) (repo : Repo) (st : IPFSState)
    (oid : String) (idx2 : NIPIndex) (r : Option (List String)),
    enumFetch fuel idx repo st oid = (idx2, r) → idx2 = idx := by
  intro fuel
  induction fuel with
  | zero =>
    intro idx repo st oid idx2 r h
    rw [enumFetch] at h
    simp only [Prod.mk.injEq] at h
    exact h.1.symm
  | succ n ih =>
    intro idx repo st oid idx2 r h
    rw [enumFetch] at h
    by_cases hodb : (lookupS repo.odb oid).isSome
    · rw [if_pos hodb] at h
      simp only [Prod.mk.injEq] at h
      exact h.1.symm
    · rw [if_neg hodb] at h
      cases hlk : lookupS idx.objects oid with
      | none =>
        simp only [hlk, Prod.mk.injEq] at h
        exact h.1.symm
      | some wh =>
        simp only [hlk] at h
        cases hcat : ipfsCat wh st with
        | none =>
          simp only [hcat, Prod.mk.injEq] at h
          exact h.1.symm
        | some b =>
          simp only [hcat] at h
          cases b with
          | idxBlob v p =>
            simp only [Prod.mk.injEq] at h
            exact h.1.symm
          | rawBlob s g =>
            simp only [Prod.mk.injEq] at h
            exact h.1.symm
          | objBlob v nobj =>
            have h2 : (if v = NIP_PROTOCOL_VERSION then
                unionFoldIdx (fun i c => enumFetch n i repo st c) idx [oid]
                  (childrenOfMeta nobj.metadata)
              else (idx, none)) = (idx2, r) := h
            by_cases hv : v = NIP_PROTOCOL_VERSION
            · rw [if_pos hv] at h2
              exact unionFoldIdx_idx_frame _
                (fun i c i2 r2 hh => ih i repo st c i2 r2 hh) _ idx _ idx2 r h2
            · rw [if_neg hv] at h2
              simp only [Prod.mk.injEq] at h2
              exact h2.1.symm

lemma fetchNipObjects_idx_frame : ∀ (oids : List String) (idx : NIPIndex) (repo : Repo)
    (st : IPFSState) (idx2 : NIPIndex) (repo2 : Repo) (r : Except String Unit),
    fetchNipObjects oids idx repo st = ((idx2, repo2), r) → idx2 = idx := by
  intro oids
  induction oids with
  | nil =>
    intro idx repo st idx2 repo2 r h
    rw [fetchNipObjects] at h
    simp only [Prod.mk.injEq] at h
    exact h.1.1.symm
  | cons o rest ih =>
    intro idx repo st idx2 repo2 r h
    rw [fetchNipObjects] at h
    cases hlk : lookupS idx.objects o with
    | none =>
      simp only [hlk, Prod.mk.injEq] at h
      exact h.1.1.symm
    | some wh =>
      simp only [hlk] at h
      cases hcat : ipfsCat wh st with
      | none =>
        simp only [hcat, Prod.mk.injEq] at h
        exact h.1.1.symm
      | some b =>
        simp only [hcat] at h
        cases b with
        | idxBlob v p =>
          simp only [Prod.mk.injEq] at h
          exact h.1.1.symm
        | rawBlob s g =>
          simp only [Prod.mk.injEq] at h
          exact h.1.1.symm
        | objBlob v nobj =>
          have h2 : (if v = NIP_PROTOCOL_VERSION then
              (if (lookupS repo.odb o).isSome then fetchNipObjects rest idx repo st
               else
                 match writeRawData nobj o repo.odb st with
                 | .error e => ((idx, repo), Except.error e)
                 | .ok odb1 => fetchNipObjects rest idx { repo with odb := odb1 } st)
            else ((idx, repo), Except.error "Unsupported protocol version"))
            = ((idx2, repo2), r) := h
          by_cases hv : v = NIP_PROTOCOL_VERSION
          · rw [if_pos hv] at h2
            by_cases hodb : (lookupS repo.odb o).isSome
            · rw [if_pos hodb] at h2
              exact ih idx repo st idx2 repo2 r h2
            · rw [if_neg hodb] at h2
              cases hw : writeRawData nobj o repo.odb st with
              | error e =>
                simp only [hw, Prod.mk.injEq] at h2
                exact h2.1.1.symm
              | ok odb1 =>
                simp only [hw] at h2
                exact ih idx { repo with odb := odb1 } st idx2 repo2 r h2
          · rw [if_neg hv] at h2
            simp only [Prod.mk.injEq] at h2
            exact h2.1.1.symm

lemma fetchToRefFromStr_idx_frame (fuel : Nat) (gitHash refName : String)
    (idx : NIPIndex) (repo : Repo) (st : IPFSState) (idx2 : NIPIndex) (repo2 : Repo)
    (r : Except String Unit)
    (h : fetchToRefFromStr fuel gitHash refName idx repo st = ((idx2, repo2), r)) :
    idx2 = idx := by
  rw [fetchToRefFromStr] at h
  split at h
  · simp only [Prod.mk.injEq] at h
    exact h.1.1.symm
  · split at h
    next idx1 henum =>
      have hidx1 : idx1 = idx := enumFetch_idx_frame fuel idx repo st gitHash idx1 none henum
      simp only [Prod.mk.injEq] at h
      rw [← h.1.1, hidx1]
    next idx1 oids henum =>
      have hidx1 : idx1 = idx := enumFetch_idx_frame fuel idx repo st gitHash idx1 _ henum
      split at h
      next idxm repom e hfetch =>
        have hidxm : idxm = idx1 :=
          fetchNipObjects_idx_frame oids idx1 repo st idxm repom _ hfetch
        simp only [Prod.mk.injEq] at h
        rw [← h.1.1, hidxm, hidx1]
      next idxm repom hfetch =>
        have hidxm : idxm = idx1 :=
          fetchNipObjects_idx_frame oids idx1 repo st idxm repom _ hfetch
        split at h
        · simp only [Prod.mk.injEq] at h
          rw [← h.1.1, hidxm, hidx1]
        · split at h
          · simp only [Prod.mk.injEq] at h
            rw [← h.1.1, hidxm, hidx1]
          · simp only [Prod.mk.injEq] at h
            rw [← h.1.1, hidxm, hidx1]
        · simp only [Prod.mk.injEq] at h
          rw [← h.1.1, hidxm, hidx1]
        · simp only [Prod.mk.injEq] at h
          rw [← h.1.1, hidxm, hidx1]

/-- Claim C10: the fetch path never mutates the index — for every
invocation of `fetch_to_ref_from_str` and of its helpers
`enumerate_for_fetch` and `fetch_nip_objects`, the index value they
return (threaded through exactly where the source lends `&mut self`) is
the index they were given, whether the call succeeds or fails. -/
theorem c10_fetch_frame (fuel : Nat) (gitHash refName oid : String) (oids : List String)
    (idx : NIPIndex) (repo : Repo) (st : IPFSState) :
    (enumFetch fuel idx repo st oid).1 = idx
    ∧ (fetchNipObjects oids idx repo st).1.1 = idx
    ∧ (fetchToRefFromStr fuel gitHash refName idx repo st).1.1 = idx := by
  refine ⟨?_, ?_, ?_⟩
  · exact enumFetch_idx_frame fuel idx repo st oid _ _ rfl
  · exact fetchNipObjects_idx_frame oids idx repo st _ _ _ rfl
  · exact fetchToRefFromStr_idx_frame fuel gitHash refName idx repo st _ _ _ rfl

/-! ## Claim C9: error propagation in the protocol driver -/

/-- Claim C9 counterexample: in the initial Capabilities state, a line the
state does not accept is only logged — `handle_capabilities` still
returns `Ok(())` with no protocol output, and the driver continues
instead of aborting. -/
theorem c9_capabilities_not_fatal_cex :
    ¬ ("flurb\n" : String) = "capabilities\n"
    ∧ handleCapabilities "flurb\n" = ([], Except.ok ()) := by
  decide

/-- Claim C9 as amended: unexpected lines are fatal in the List state and
in the Ops state, and per-push errors are converted to
`error <dst> "<msg>"` output lines with the batch continuing — but in the
Capabilities state an unexpected line is merely logged and the driver
continues with `Ok(())`. -/
theorem c9_error_propagation (lineL lineO lineC lineP : String) (fuel : Nat)
    (repo : Repo) (idx : NIPIndex) (st : IPFSState) (src dst : String) (force : Bool)
    (idx1 : NIPIndex) (st1 : IPFSState) (e : String) :
    (¬ strHasLead lineL "list" = true → ¬ lineL = "\n" →
      handleListCmd lineL = .fatal ("Expected a list command, got " ++ lineL))
    ∧ (¬ strHasLead lineO "fetch" = true → ¬ strHasLead lineO "push" = true →
        ¬ lineO = "" →
        classifyOpsLine lineO
          = .fatal ("Git unexpectedly said " ++ lineO ++ " during push/fetch parsing."))
    ∧ (¬ lineC = "capabilities\n" → handleCapabilities lineC = ([], Except.ok ()))
    ∧ (parsePushLine lineP = some (src, dst, force) →
        pushRefFromStr fuel src dst repo idx st = ((idx1, st1), .error e) →
        handlePushLine fuel lineP repo idx st
          = .ok ((idx1, st1), ["error " ++ dst ++ " \x22" ++ e ++ "\x22"])) := by
  refine ⟨?_, ?_, ?_, ?_⟩
  · intro h1 h2
    rw [handleListCmd, if_neg h1, if_neg h2]
  · intro h1 h2 h3
    rw [classifyOpsLine, if_neg h1, if_neg h2, if_neg h3]
  · intro h1
    rw [handleCapabilities, if_neg h1]
  · intro hparse hpush
    rw [handlePushLine]
    simp only [hparse, hpush]

/-- Empty repo and store for the C9 witness push (the push fails because
the source ref does not exist). -/
def c9Repo : Repo := { odb := [], refs := [], reflog := [] }

def c9St : IPFSState := { blobs := [], ipns := [] }

/-- Witness for the amended C9 at concrete lines. -/
theorem c9_error_propagation_witness :
    handleListCmd "bogus\n" = .fatal ("Expected a list command, got " ++ "bogus\n")
    ∧ classifyOpsLine "caps"
      = .fatal ("Git unexpectedly said " ++ "caps" ++ " during push/fetch parsing.")
    ∧ handleCapabilities "flurb2\n" = ([], Except.ok ())
    ∧ handlePushLine 1 "push refs/heads/x:refs/heads/x" c9Repo emptyIndex c9St
      = .ok ((emptyIndex, c9St),
          ["error " ++ "refs/heads/x" ++ " \x22"
            ++ "could not find reference refs/heads/x" ++ "\x22"]) := by
  have h := c9_error_propagation "bogus\n" "caps" "flurb2\n"
    "push refs/heads/x:refs/heads/x" 1 c9Repo emptyIndex c9St
    "refs/heads/x" "refs/heads/x" false emptyIndex c9St
    "could not find reference refs/heads/x"
  exact ⟨h.1 (by decide) (by decide), h.2.1 (by decide) (by decide) (by decide),
    h.2.2.1 (by decide), h.2.2.2 (by decide) (by decide)⟩

/-! ## Claim C3: idempotence of a repeated push -/

lemma ltCharList_irrefl : ∀ l : List Char, ltCharList l l = false := by
  intro l
  induction l with
  | nil => rfl
  | cons c cs ih =>
    rw [ltCharList]
    simp [Nat.lt_irrefl, ih]

lemma keyLt_irrefl (k : String) : keyLt k k = false := ltCharList_irrefl k.data

lemma insertS_idem {α : Type} (k : String) (v : α) : ∀ m : List (String × α),
    insertS k v (insertS k v m) = insertS k v m := by
  intro m
  induction m with
  | nil => simp [insertS, keyLt_irrefl]
  | cons e rest ih =>
    obtain ⟨k2, v2⟩ := e
    by_cases hlt : keyLt k k2 = true
    · rw [insertS, if_pos hlt, insertS]
      simp [keyLt_irrefl]
    · by_cases heq : k = k2
      · subst heq
        rw [insertS, if_neg hlt, if_pos rfl, insertS]
        simp [keyLt_irrefl]
      · rw [insertS, if_neg hlt, if_neg heq, insertS, if_neg hlt, if_neg heq, ih]

/-- Decomposition of a successful `push_ref_from_str` run into its
constituent steps. -/
lemma pushRefFromStr_ok_parts (fuel : Nat) (src dst : String) (repo : Repo)
    (idx0 : NIPIndex) (st0 : IPFSState) (idx1 : NIPIndex) (st1 : IPFSState)
    (h : pushRefFromStr fuel src dst repo idx0 st0 = ((idx1, st1), .ok ())) :
    ∃ sha g oids idxp, lookupS repo.refs src = some sha
      ∧ lookupS repo.odb sha = some g
      ∧ ((∃ t ps, g = GitObject.commit t ps) ∨ (∃ t, g = GitObject.tag t))
      ∧ enumPush fuel idx0.objects repo sha = some oids
      ∧ pushGitObjects oids repo idx0 st0 = ((idxp, st1), .ok ())
      ∧ idx1 = { idxp with refs := insertS dst sha idxp.refs } := by
  rw [pushRefFromStr] at h
  cases href : lookupS repo.refs src with
  | none => simp only [href] at h; simp at h
  | some sha =>
    simp only [href] at h
    cases hodb : lookupS repo.odb sha with
    | none => simp only [hodb] at h; simp at h
    | some g =>
      simp only [hodb] at h
      cases g with
      | tree es => simp at h
      | blob => simp at h
      | commit t ps =>
        cases henum : enumPush fuel idx0.objects repo sha with
        | none => simp only [henum] at h; simp at h
        | some oids =>
          simp only [henum] at h
          cases hpush : pushGitObjects oids repo idx0 st0 with
          | mk p r =>
            obtain ⟨idxp, stp⟩ := p
            cases r with
            | error e => simp only [hpush] at h; simp at h
            | ok u =>
              cases u
              simp only [hpush, Prod.mk.injEq] at h
              obtain ⟨⟨hi, hs⟩, _⟩ := h
              subst hs
              exact ⟨sha, _, oids, idxp, rfl, hodb, Or.inl ⟨t, ps, rfl⟩, henum, hpush,
                hi.symm⟩
      | tag tg =>
        cases henum : enumPush fuel idx0.objects repo sha with
        | none => simp only [henum] at h; simp at h
        | some oids =>
          simp only [henum] at h
          cases hpush : pushGitObjects oids repo idx0 st0 with
          | mk p r =>
            obtain ⟨idxp, stp⟩ := p
            cases r with
            | error e => simp only [hpush] at h; simp at h
            | ok u =>
              cases u
              simp only [hpush, Prod.mk.injEq] at h
              obtain ⟨⟨hi, hs⟩, _⟩ := h
              subst hs
              exact ⟨sha, _, oids, idxp, rfl, hodb, Or.inr ⟨tg, rfl⟩, henum, hpush,
                hi.symm⟩

/-- Claim C3: pushing the same refspec twice in a row is idempotent — if a
push of `src:dst` succeeded and produced index `idx1` and store `st1`
(the state a second invocation loads at startup), then running the same
push again returns `idx1` and `st1` unchanged with `ok <dst>`, the
driver's comparison `index_before == index_after` holds, and the commit
phase uploads nothing and rewrites no URL. -/
theorem c3_push_idempotent (fuel : Nat) (line src dst : String) (force : Bool)
    (repo : Repo) (idx0 : NIPIndex) (st0 : IPFSState) (idx1 : NIPIndex) (st1 : IPFSState)
    (url : String)
    (hparse : parsePushLine line = some (src, dst, force))
    (hfirst : pushRefFromStr fuel src dst repo idx0 st0 = ((idx1, st1), .ok ())) :
    pushRefFromStr fuel src dst repo idx1 st1 = ((idx1, st1), .ok ())
    ∧ handlePushLine fuel line repo idx1 st1 = .ok ((idx1, st1), ["ok " ++ dst])
    ∧ commitPhase idx1 idx1 url st1 = (st1, .ok none) := by
  obtain ⟨sha, g, oids, idxp, href, hodb, hshape, henum, hpush, hidx1⟩ :=
    pushRefFromStr_ok_parts fuel src dst repo idx0 st0 idx1 st1 hfirst
  cases fuel with
  | zero => rw [enumPush] at henum; cases henum
  | succ n =>
    have hobj1 : idx1.objects = idxp.objects := by rw [hidx1]
    have hsome1 : (lookupS idx1.objects sha).isSome := by
      rw [hobj1]
      by_cases h0 : (lookupS idx0.objects sha).isSome
      · have hm := pushGitObjects_mono oids repo idx0 st0 sha h0
        rw [hpush] at hm
        exact hm
      · have hnone : lookupS idx0.objects sha = none := by
          cases hl : lookupS idx0.objects sha with
          | none => rfl
          | some v => rw [hl] at h0; cases h0 rfl
        have hmem : sha ∈ oids :=
          ((enumPush_spec (n + 1) idx0.objects repo sha oids henum).2 sha).mpr
            (PushReach.refl hnone)
        exact pushGitObjects_covers oids repo idx0 st0 idxp st1 hpush sha hmem
    have henum2 : enumPush (n + 1) idx1.objects repo sha = some [] := by
      rw [enumPush, if_pos hsome1]
    have hrefs1 : idx1.refs = insertS dst sha idxp.refs := by rw [hidx1]
    have hins : insertS dst sha idx1.refs = idx1.refs := by
      rw [hrefs1]
      exact insertS_idem dst sha idxp.refs
    have hswap : { idx1 with refs := insertS dst sha idx1.refs } = idx1 := by
      cases idx1 with
      | mk a b c =>
        have h2 : insertS dst sha a = a := hins
        show NIPIndex.mk (insertS dst sha a) b c = NIPIndex.mk a b c
        rw [h2]
    have hstep : pushRefFromStr (n + 1) src dst repo idx1 st1 = ((idx1, st1), .ok ()) := by
      rw [pushRefFromStr]
      simp only [href, hodb]
      rcases hshape with ⟨t, ps, rfl⟩ | ⟨t, rfl⟩
      · simp only [henum2, pushGitObjects]
        rw [hswap]
      · simp only [henum2, pushGitObjects]
        rw [hswap]
    refine ⟨hstep, ?_, ?_⟩
    · rw [handlePushLine]
      simp only [hparse, hstep]
    · rw [commitPhase, if_pos rfl]

/-- Repo, store and first push for the C3 witness. -/
def c3Repo : Repo :=
  { odb := [("aa", .commit "ta" []), ("ta", .tree [])],
    refs := [("refs/heads/master", "aa")],
    reflog := [] }

def c3St0 : IPFSState := { blobs := [], ipns := [] }

def c3Push1 : (NIPIndex × IPFSState) × Except String Unit :=
  pushRefFromStr 3 "refs/heads/master" "refs/heads/master" c3Repo emptyIndex c3St0

/-- Witness for C3 at a concrete repeated push. -/
theorem c3_push_idempotent_witness :
    pushRefFromStr 3 "refs/heads/master" "refs/heads/master" c3Repo c3Push1.1.1 c3Push1.1.2
      = ((c3Push1.1.1, c3Push1.1.2), .ok ())
    ∧ handlePushLine 3 "push refs/heads/master:refs/heads/master" c3Repo
        c3Push1.1.1 c3Push1.1.2
      = .ok ((c3Push1.1.1, c3Push1.1.2), ["ok " ++ "refs/heads/master"])
    ∧ commitPhase c3Push1.1.1 c3Push1.1.1 "nip::new-ipfs" c3Push1.1.2
      = (c3Push1.1.2, .ok none) :=
  c3_push_idempotent 3 "push refs/heads/master:refs/heads/master"
    "refs/heads/master" "refs/heads/master" false c3Repo emptyIndex c3St0
    c3Push1.1.1 c3Push1.1.2 "nip::new-ipfs" (by decide) (by decide)

end NipVerify
